import Mathlib

/-!
Verification of the MPlib motion-planning core against its specification.

Shallow embedding of the MPlib motion-planning stack.  The caller-level demo
code (`DemoSetup.follow_path`, `move_to_pose_with_RRTConnect`,
`move_to_pose_with_screw`, `move_to_pose` in `mplib/examples/demo_setup.py`)
is embedded directly from the source.  The planning core (Pose algebra,
ArticulatedModel forward/inverse kinematics, CollisionWorld attached bodies,
the RRTConnect sampling planner, the screw-motion planner and the trajectory
time parameterizer) is not shipped in this source tree — only its callers and
tests are — so those components are modelled from the specification text, as
marked on each definition.

All numeric state is over `ℚ` (the spec's real-valued kinematics, embedded
exactly); external transcendental steps (rotation exponentials, the numeric
IK update) enter as explicit functional parameters, matching the spec's
"external collaborator" boundaries.
-/

namespace MPlib

/-- Modelled from the spec: `Pose` is a rigid transform value type
(3D position + quaternion orientation), with composition and inversion.
Components are rationals; the quaternion is kept unnormalized-agnostic here
(the algebraic claims below do not depend on normalization). -/
structure Pose where
  px : ℚ
  py : ℚ
  pz : ℚ
  qw : ℚ
  qx : ℚ
  qy : ℚ
  qz : ℚ
deriving DecidableEq, Repr

/-- The identity rigid transform. -/
def Pose.id : Pose := ⟨0, 0, 0, 1, 0, 0, 0⟩

/-- Rotate the vector `(vx, vy, vz)` by the quaternion part of `p`
(standard quaternion sandwich product, expanded to components). -/
def Pose.rot (p : Pose) (vx vy vz : ℚ) : ℚ × ℚ × ℚ :=
  let w := p.qw; let x := p.qx; let y := p.qy; let z := p.qz
  ( (w*w + x*x - y*y - z*z) * vx + 2*(x*y - w*z) * vy + 2*(x*z + w*y) * vz
  , 2*(x*y + w*z) * vx + (w*w - x*x + y*y - z*z) * vy + 2*(y*z - w*x) * vz
  , 2*(x*z - w*y) * vx + 2*(y*z + w*x) * vy + (w*w - x*x - y*y + z*z) * vz )

/-- Pose composition: rotate-then-translate, quaternion product for
orientation (associative, not commutative). -/
def Pose.mul (a b : Pose) : Pose :=
  let (rx, ry, rz) := a.rot b.px b.py b.pz
  { px := a.px + rx
  , py := a.py + ry
  , pz := a.pz + rz
  , qw := a.qw*b.qw - a.qx*b.qx - a.qy*b.qy - a.qz*b.qz
  , qx := a.qw*b.qx + a.qx*b.qw + a.qy*b.qz - a.qz*b.qy
  , qy := a.qw*b.qy - a.qx*b.qz + a.qy*b.qw + a.qz*b.qx
  , qz := a.qw*b.qz + a.qx*b.qy - a.qy*b.qx + a.qz*b.qw }

/-- A joint-space configuration: one rational per joint. -/
abbrev Config := List ℚ

/-- Modelled from the spec: one link of the ArticulatedModel's kinematic
tree.  `parent` is the arena index of the parent link (a root link points to
itself); `motion` is the local transform of the link relative to its parent
as a function of the driving joint's value (for a fixed joint the function is
constant; the revolute exponential map is supplied by the external kinematic
tree, hence a functional field). -/
structure Link where
  parent : Nat
  motion : ℚ → Pose

/-- Modelled from the spec: the ArticulatedModel's kinematic tree — an
ordered arena of links, each with a parent back-pointer, plus per-joint
`[lower, upper]` position limits. -/
structure ArticulatedModel where
  links : List Link
  lower : List ℚ
  upper : List ℚ

/-- Accumulated world poses of all links: link `i`'s pose is its parent's
pose composed with its own joint-driven local motion.  Processed in arena
order (parents come first), exactly the fold a tree with integer-handle
back-pointers admits. -/
def linkPoses (m : ArticulatedModel) (q : Config) : List Pose :=
  (m.links.zipWith (fun l v => (l, v)) q).foldl
    (fun acc lv =>
      acc ++ [Pose.mul (acc.getD lv.1.parent Pose.id) (lv.1.motion lv.2)])
    []

/-- Modelled from the spec: `forward_kinematics(config) -> Pose` for any
requested link — a pure function of the configuration and the fixed tree. -/
def forward_kinematics (m : ArticulatedModel) (q : Config) (link : Nat) : Pose :=
  (linkPoses m q).getD link Pose.id

/-- The five planner statuses of the planning request surface. -/
inductive PlanStatus where
  | Success
  | IKFailure
  | PlanningFailure
  | InfeasibleTimingError
  | UnknownLinkError
deriving DecidableEq, Repr

/-- One trajectory sample: a time stamp and per-move-group-joint position,
velocity and acceleration values. -/
structure Sample where
  t : ℚ
  pos : List ℚ
  vel : List ℚ
  acc : List ℚ
deriving DecidableEq, Repr

/-- A time-parameterized trajectory: the ordered samples plus the total
duration. -/
structure Trajectory where
  samples : List Sample
  duration : ℚ
deriving DecidableEq, Repr

/-- Linear search for the least candidate `acc` with `n < acc * acc`,
with enough fuel to always find one. -/
def upSqrtGo (n : Nat) : Nat → Nat → Nat
  | 0, acc => acc
  | fuel + 1, acc => if n < acc * acc then acc else upSqrtGo n fuel (acc + 1)

/-- A strict natural upper bound on the square root: `n < upSqrt n * upSqrt n`
and `0 < upSqrt n`. -/
def upSqrt (n : Nat) : Nat := upSqrtGo n (n + 1) 0

/-- A rational upper bound on the square root of a nonnegative rational:
`sqrtUB q ≥ √q` and `sqrtUB q > 0`, via `upSqrt` on `num * den`. -/
def sqrtUB (q : ℚ) : ℚ :=
  ((upSqrt (q.num.toNat * q.den) : ℕ) : ℚ) / (q.den : ℚ)

/-- Modelled from the spec: the duration the TrajectoryTimeParameterizer
gives one joint over one path segment, so that the triangular
(accelerate-then-decelerate) velocity profile used below keeps that joint
inside its velocity limit `v` (peak speed `2|d|/T`) and acceleration limit
`a` (constant magnitude `4|d|/T²`). -/
def segTimeJoint (d v a : ℚ) : ℚ :=
  max (2 * |d| / v) (sqrtUB (4 * |d| / a))

/-- Modelled from the spec: segment duration synchronized across joints —
the slowest joint governs the segment duration. -/
def segTime (dq vlim alim : List ℚ) : ℚ :=
  (List.range vlim.length).foldr
    (fun j acc => max (segTimeJoint (dq.getD j 0) (vlim.getD j 0) (alim.getD j 0)) acc) 0

/-- Per-joint displacement of a segment. -/
def segDelta (qprev qnext : List ℚ) : List ℚ :=
  List.zipWith (fun b a => b - a) qnext qprev

/-- Modelled from the spec: sample stream of the time parameterizer over the
remaining waypoints.  Each non-degenerate segment gets a synchronized
triangular velocity profile: a mid-segment sample at peak velocity
`2 d / T` under acceleration magnitude `4 d / T²`, and an end-of-segment
sample at rest.  A zero-length degenerate segment is treated as
instantaneous (skipped).  `t0`/`qprev` are the time and configuration the
previous segment ended at. -/
def timeSamples (vlim alim : List ℚ) : ℚ → List ℚ → List (List ℚ) → List Sample
  | _, _, [] => []
  | t0, qprev, qnext :: rest =>
    if qprev = qnext then
      timeSamples vlim alim t0 qprev rest
    else
      let dq := segDelta qprev qnext
      let T := segTime dq vlim alim
      { t := t0 + T / 2
      , pos := List.zipWith (fun a b => (a + b) / 2) qprev qnext
      , vel := dq.map (fun d => 2 * d / T)
      , acc := dq.map (fun d => 4 * d / (T * T)) } ::
      { t := t0 + T
      , pos := qnext
      , vel := qnext.map (fun _ => 0)
      , acc := dq.map (fun d => -(4 * d / (T * T))) } ::
      timeSamples vlim alim (t0 + T) qnext rest

/-- Modelled from the spec: the TrajectoryTimeParameterizer.  Converts a
geometric joint-space path into a time-stamped position/velocity/
acceleration profile respecting the per-joint limits; fails with
`InfeasibleTimingError` if any limit is non-positive, and with
`PlanningFailure` on an empty path.  The trajectory starts at time `0` at
the path's first waypoint, at rest. -/
def parameterize (path : List (List ℚ)) (vlim alim : List ℚ) :
    Except PlanStatus Trajectory :=
  if (∀ v ∈ vlim, 0 < v) ∧ (∀ a ∈ alim, 0 < a) then
    match path with
    | [] => .error .PlanningFailure
    | q0 :: rest =>
      let samples :=
        { t := 0, pos := q0, vel := q0.map (fun _ => 0)
        , acc := q0.map (fun _ => 0) } :: timeSamples vlim alim 0 q0 rest
      .ok { samples := samples
          , duration := ((samples.getLast?).map Sample.t).getD 0 }
  else
    .error .InfeasibleTimingError

/-- Whether a configuration lies within every joint's `[lower, upper]`
position limits. -/
def withinLimits (lower upper : List ℚ) (q : Config) : Bool :=
  (List.range lower.length).all fun j =>
    decide (lower.getD j 0 ≤ q.getD j 0) && decide (q.getD j 0 ≤ upper.getD j 0)

/-- Modelled from the spec: the iterative IK search loop.  `update` is the
external numeric step (damped least-squares / Newton on the Jacobian) and
`residual` the pose error of a candidate.  The loop stops as soon as the
residual is within tolerance; an in-tolerance solution outside the joint
limits is rejected (never clamped); running out of iterations is
`IKFailure`. -/
def ikLoop (update : Config → Config) (residual : Config → ℚ) (tol : ℚ)
    (lower upper : List ℚ) : Nat → Config → Except PlanStatus Config
  | 0, _ => .error .IKFailure
  | n + 1, q =>
    if residual q ≤ tol then
      if withinLimits lower upper q then .ok q else .error .IKFailure
    else
      ikLoop update residual tol lower upper n (update q)

/-- Modelled from the spec:
`inverse_kinematics(target_pose, link, seed_config, max_iterations,
tolerance) -> (config | failure)`, iterating from `seed` against the
model's joint limits. -/
def inverse_kinematics (m : ArticulatedModel)
    (update : Config → Config) (residual : Config → ℚ)
    (seed : Config) (maxIterations : Nat) (tol : ℚ) : Except PlanStatus Config :=
  ikLoop update residual tol m.lower m.upper maxIterations seed

/-! ## CollisionWorld: attached bodies and the validity oracle -/

/-- Modelled from the spec: an object rigidly attached to a robot link,
stored as the link's arena index plus the relative offset — not a world
pose. -/
structure AttachedBody where
  link : Nat
  offset : Pose
deriving DecidableEq

/-- Modelled from the spec: the PlanningWorld — the articulated model plus
the attached objects and the static obstacles (the obstacle geometry itself
is an opaque handle of the external collision engine; only its pose lives
here). -/
structure PlanningWorld where
  model : ArticulatedModel
  attached : List AttachedBody
  obstacles : List Pose

/-- Modelled from the spec: the attached-object world poses recomputed from
the current configuration on each query — `link_pose * relative_offset`,
never stored. -/
def updateAttachedPoses (w : PlanningWorld) (q : Config) : List Pose :=
  w.attached.map fun b => Pose.mul (forward_kinematics w.model q b.link) b.offset

/-- Modelled from the spec: `CollisionWorld.is_valid(config)` — evaluate
forward kinematics for all links, update attached-object poses, and run
the pairwise checks (robot-self over the enabled pairs, robot-obstacle,
attached-obstacle, attached-robot) through the external intersection
oracle `collide`. -/
def is_valid (w : PlanningWorld) (collide : Pose → Pose → Bool)
    (selfPairs : List (Nat × Nat)) (q : Config) : Bool :=
  let lps := linkPoses w.model q
  let aps := updateAttachedPoses w q
  selfPairs.all (fun p => !collide (lps.getD p.1 Pose.id) (lps.getD p.2 Pose.id)) &&
  lps.all (fun lp => w.obstacles.all (fun o => !collide lp o)) &&
  aps.all (fun ap =>
    w.obstacles.all (fun o => !collide ap o) && lps.all (fun lp => !collide ap lp))

/-! ## SamplingPlanner: RRTConnect over joint space -/

/-- One node of a search tree: a configuration plus the parent's arena
index (a root points to itself). -/
structure Node where
  config : Config
  parent : Nat
deriving DecidableEq, Repr

/-- A search tree, as an arena of nodes indexed by integer handle. -/
abbrev Tree := List Node

/-- Squared joint-space Euclidean distance over the move-group joints. -/
def dist2 (a b : Config) : ℚ :=
  (List.zipWith (fun x y => (x - y) * (x - y)) a b).sum

/-- Arena lookup defaulting to the root node. -/
def getNode (tree : Tree) (i : Nat) : Node :=
  tree.getD i (tree.headD ⟨[], 0⟩)

/-- Index of a node of `tree` nearest to `q` (linear scan). -/
def nearest (tree : Tree) (q : Config) : Nat :=
  (tree.enum.foldl
    (fun best in_ =>
      if dist2 in_.2.config q < best.2 then (in_.1, dist2 in_.2.config q) else best)
    (0, dist2 (getNode tree 0).config q)).1

/-- Linear interpolation between configurations. -/
def lerp (a b : Config) (t : ℚ) : Config :=
  List.zipWith (fun x y => x + t * (y - x)) a b

/-- The `k` evenly spaced configurations along the straight joint-space
segment from `a` to `b`, endpoint included. -/
def steerConfigs (a b : Config) (k : Nat) : List Config :=
  (List.range k).map fun i => lerp a b ((i + 1 : ℚ) / (k : ℚ))

/-- Arena nodes for a freshly validated chain of configurations: the first
node's parent is `par`, each later node's parent is its predecessor, whose
arena index is `idx`. -/
def chainNodes : Nat → Nat → List Config → List Node
  | _, _, [] => []
  | par, idx, c :: cs => ⟨c, par⟩ :: chainNodes idx (idx + 1) cs

/-- Modelled from the spec: one bounded-step extension of a tree toward a
target configuration, validating every intermediate configuration and
stopping at the first invalid one (a truncated extension is kept, a core
RRTConnect property).  Returns the grown tree and the index of the last
node added, if any. -/
def extend (valid : Config → Bool) (k : Nat) (tree : Tree) (target : Config) :
    Tree × Option Nat :=
  let ni := nearest tree target
  let qs := (steerConfigs (getNode tree ni).config target k).takeWhile valid
  if qs.isEmpty then (tree, none)
  else
    (tree ++ chainNodes ni tree.length qs, some (tree.length + qs.length - 1))

/-- Modelled from the spec: repeatedly extend a tree toward a fixed target
until it is reached or the extension is blocked. -/
def connectLoop (valid : Config → Bool) (k : Nat) (target : Config) :
    Nat → Tree → Tree × Option Nat
  | 0, tree => (tree, none)
  | fuel + 1, tree =>
    match extend valid k tree target with
    | (tree1, none) => (tree1, none)
    | (tree1, some li) =>
      if (getNode tree1 li).config = target then (tree1, some li)
      else connectLoop valid k target fuel tree1

/-- Back-pointer walk from node `i` to the tree's root, collecting
configurations (node first, root last).  `fuel` bounds the walk. -/
def trace (tree : Tree) : Nat → Nat → List Config
  | 0, _ => []
  | fuel + 1, i =>
    let n := getNode tree i
    if n.parent = i then [n.config]
    else n.config :: trace tree fuel n.parent

/-- Modelled from the spec: the bidirectional RRTConnect loop.  Each
iteration extends the active tree toward the next sample of the seeded
random stream, tries to connect the passive tree to the newly added node,
and swaps the trees; it terminates with the extracted tree-to-tree path on
connection, or with failure when the sample budget is exhausted.
`aIsStart` records which tree is rooted at the start configuration. -/
def rrtLoop (valid : Config → Bool) (k cf : Nat) :
    List Config → Tree → Tree → Bool → Option (List Config)
  | [], _, _, _ => none
  | s :: rest, ta, tb, aIsStart =>
    match extend valid k ta s with
    | (ta1, none) => rrtLoop valid k cf rest tb ta1 (!aIsStart)
    | (ta1, some li) =>
      let qnew := (getNode ta1 li).config
      match connectLoop valid k qnew cf tb with
      | (tb1, some lj) =>
        let pa := (trace ta1 ta1.length li).reverse
        let pb := trace tb1 tb1.length lj
        some (if aIsStart then pa ++ pb else pb.reverse ++ pa.reverse)
      | (tb1, none) => rrtLoop valid k cf rest tb1 ta1 (!aIsStart)

/-- Whether the straight segment from `a` to `b` is collision-checked valid
at every sampled intermediate configuration. -/
def segmentValid (valid : Config → Bool) (k : Nat) (a b : Config) : Bool :=
  (steerConfigs a b k).all valid

/-- Modelled from the spec: shortcutting — replace a sub-path with a
direct collision-checked segment when valid. -/
def shortcut (valid : Config → Bool) (k : Nat) : List Config → List Config
  | a :: b :: c :: rest =>
    if segmentValid valid k a c then a :: shortcut valid k (c :: rest)
    else a :: shortcut valid k (b :: c :: rest)
  | l => l

/-- Modelled from the spec: the SamplingPlanner entry point.  Grows a tree
from the start and one from the goal, with the seeded sample stream
`samples`; on connection extracts the path and runs shortcutting. -/
def plan_rrt (valid : Config → Bool) (k cf : Nat) (samples : List Config)
    (start goal : Config) : Option (List Config) :=
  if valid start && valid goal then
    (rrtLoop valid k cf samples [⟨start, 0⟩] [⟨goal, 0⟩] true).map (shortcut valid k)
  else none

/-! ## The planning request surface and the screw-motion planner -/

/-- The result dictionary of a planning request: an explicit status plus
the `time`, `position`, `velocity`, `acceleration` per-sample arrays and
the total `duration` (the keys of the dictionary
`plan_qpos_to_pose` / `plan_screw` return in the source). -/
structure PlanResult where
  status : PlanStatus
  time : List ℚ
  position : List (List ℚ)
  velocity : List (List ℚ)
  acceleration : List (List ℚ)
  duration : ℚ
deriving DecidableEq, Repr

/-- A failed plan: the status, with empty sample arrays — the motion is
rejected as a whole, no partial trajectory is handed out. -/
def failureResult (s : PlanStatus) : PlanResult :=
  { status := s, time := [], position := [], velocity := [], acceleration := []
  , duration := 0 }

/-- Package a time-parameterized trajectory as a `Success` result. -/
def resultOfTraj (tr : Trajectory) : PlanResult :=
  { status := .Success
  , time := tr.samples.map Sample.t
  , position := tr.samples.map Sample.pos
  , velocity := tr.samples.map Sample.vel
  , acceleration := tr.samples.map Sample.acc
  , duration := tr.duration }

/-- Modelled from the spec: the dependencies a planning query closes over —
the PlanningWorld's validity oracle, the seeded IK solvers, the screw
interpolator (the matrix-exponential pose sampler, an external
transcendental computation), the seeded random sample stream, the
extension/connection step counts, the per-joint limits and the fixed time
step of the parameterizer. -/
structure PlannerCtx where
  valid : Config → Bool
  ikGoal : Config → Pose → Except PlanStatus Config
  ikStep : Config → Pose → Option Config
  interp : Pose → Pose → List Pose
  eePose : Config → Pose
  samples : List Config
  k : Nat
  cf : Nat
  vlim : List ℚ
  alim : List ℚ
  timeStep : ℚ

/-- Modelled from the spec: `plan_qpos_to_pose` — resolve the goal pose to
a joint-space target by IK, search with the sampling planner, then
time-parameterize; every failure comes back as a status, never an
exception. -/
def plan_qpos_to_pose (ctx : PlannerCtx) (goal : Pose) (start : Config) : PlanResult :=
  match ctx.ikGoal start goal with
  | .error s => failureResult s
  | .ok goalCfg =>
    match plan_rrt ctx.valid ctx.k ctx.cf ctx.samples start goalCfg with
    | none => failureResult .PlanningFailure
    | some path =>
      match parameterize path ctx.vlim ctx.alim with
      | .error s => failureResult s
      | .ok traj => resultOfTraj traj

/-- Modelled from the spec: the ScrewMotionPlanner's step chain — convert
each interpolated pose to joint space via IK seeded by the previous step's
solution, validating each; fail fast at the first invalid or
non-convergent step. -/
def screwSteps (ik : Config → Pose → Option Config) (valid : Config → Bool) :
    Config → List Pose → Option (List Config)
  | _, [] => some []
  | seed, p :: ps =>
    match ik seed p with
    | none => none
    | some q =>
      if valid q then (screwSteps ik valid q ps).map (q :: ·) else none

/-- Modelled from the spec: `plan_screw` — sample the screw taking the
end-effector's current pose to the goal, chain IK along it, and
time-parameterize on full success; any failed step rejects the whole
straight-line motion with a failure status and no partial path, and no
other planner is consulted. -/
def plan_screw (ctx : PlannerCtx) (goal : Pose) (start : Config) : PlanResult :=
  match screwSteps ctx.ikStep ctx.valid start (ctx.interp (ctx.eePose start) goal) with
  | none => failureResult .PlanningFailure
  | some cfgs =>
    match parameterize (start :: cfgs) ctx.vlim ctx.alim with
    | .error s => failureResult s
    | .ok traj => resultOfTraj traj

/-- Modelled from the spec: the planning request surface
`plan_to_pose(target_pose, start_config, time_step, use_screw)` —
dispatch on `use_screw` to exactly one of the two planners and return its
result dictionary. -/
def plan_to_pose (ctx : PlannerCtx) (goal : Pose) (start : Config)
    (use_screw : Bool) : PlanResult :=
  if use_screw then plan_screw ctx goal start
  else plan_qpos_to_pose ctx goal start

/-! ## The demo caller (`mplib/examples/demo_setup.py`), embedded from the
source -/

/-- The simulator-side robot state the demo reads and writes: the current
joint positions, the per-active-joint drive targets and the applied
passive-force compensation.  The physics scene itself is the external
simulator. -/
structure RobotState where
  qpos : Config
  driveTargets : List ℚ
  driveVelTargets : List ℚ
  qf : List ℚ
deriving DecidableEq, Repr

/-- The external simulator boundary used by `follow_path`:
`compute_passive_force` and the joint-position outcome of `scene.step()`
(the physics step reads the drive targets; it does not write them). -/
structure SimCtx where
  passiveForce : RobotState → List ℚ
  stepQpos : RobotState → Config

/-- The inner loop body of `DemoSetup.follow_path`, from the source: set
drive position/velocity targets for the first `m = len(move_group_joint_indices)`
active joints only, leaving every other joint's targets as they were. -/
def setDriveTargets (m : Nat) (pos vel : List ℚ) (rs : RobotState) : RobotState :=
  { rs with
    driveTargets := (List.range rs.driveTargets.length).map fun j =>
      if j < m then pos.getD j 0 else rs.driveTargets.getD j 0
    driveVelTargets := (List.range rs.driveVelTargets.length).map fun j =>
      if j < m then vel.getD j 0 else rs.driveVelTargets.getD j 0 }

/-- One iteration of `DemoSetup.follow_path`: apply passive-force
compensation, write the move-group drive targets from sample `i` of the
result, then advance the simulation one step.  (The every-4th-step render
call touches no robot state.) -/
def followStep (sim : SimCtx) (m : Nat) (pos vel : List ℚ) (rs : RobotState) :
    RobotState :=
  let rs1 := { rs with qf := sim.passiveForce rs }
  let rs2 := setDriveTargets m pos vel rs1
  { rs2 with qpos := sim.stepQpos rs2 }

/-- `DemoSetup.follow_path(result)`, from the source: iterate `followStep`
over the `n_step` samples of the planner result. -/
def follow_path (sim : SimCtx) (m : Nat) (result : PlanResult) (rs : RobotState) :
    RobotState :=
  (List.range result.position.length).foldl
    (fun st i => followStep sim m (result.position.getD i []) (result.velocity.getD i []) st)
    rs

/-- `DemoSetup.move_to_pose_with_RRTConnect(pose)`, from the source: plan
with `plan_qpos_to_pose` from the robot's current joint positions; if the
status is not `Success`, return `-1` without following the path; otherwise
follow the path and return `0`. -/
def move_to_pose_with_RRTConnect (ctx : PlannerCtx) (sim : SimCtx) (m : Nat)
    (rs : RobotState) (pose : Pose) : RobotState × Int :=
  let result := plan_qpos_to_pose ctx pose rs.qpos
  if result.status ≠ .Success then (rs, -1)
  else (follow_path sim m result rs, 0)

/-- `DemoSetup.move_to_pose_with_screw(pose)`, from the source: plan with
`plan_screw`; follow the path on `Success`, otherwise fall back to
RRTConnect — the fallback lives here in the caller, not in the core. -/
def move_to_pose_with_screw (ctx : PlannerCtx) (sim : SimCtx) (m : Nat)
    (rs : RobotState) (pose : Pose) : RobotState × Int :=
  let result := plan_screw ctx pose rs.qpos
  if result.status = .Success then (follow_path sim m result rs, 0)
  else move_to_pose_with_RRTConnect ctx sim m rs pose

/-- `DemoSetup.move_to_pose(pose, with_screw)`, from the source: multiplex
between the two planning methods. -/
def move_to_pose (ctx : PlannerCtx) (sim : SimCtx) (m : Nat)
    (rs : RobotState) (pose : Pose) (with_screw : Bool) : RobotState × Int :=
  if with_screw then move_to_pose_with_screw ctx sim m rs pose
  else move_to_pose_with_RRTConnect ctx sim m rs pose

/-! ## Concrete fixtures used to exercise the definitions -/

/-- A one-joint test model whose joint shifts the link along x by the joint
value, with position limits `[-1, 1]`. -/
def testModel : ArticulatedModel :=
  ⟨[⟨0, fun v => ⟨v, 0, 0, 1, 0, 0, 0⟩⟩], [-1], [1]⟩

/-- A test world: the test model with one object attached to link 0 at a
unit-x offset and no obstacles. -/
def testWorld : PlanningWorld :=
  ⟨testModel, [⟨0, ⟨1, 0, 0, 1, 0, 0, 0⟩⟩], []⟩

/-- A planner context whose every query fails: goal IK refuses, the screw
step IK refuses. -/
def failCtx : PlannerCtx :=
  { valid := fun _ => true
  , ikGoal := fun _ _ => .error .IKFailure
  , ikStep := fun _ _ => none
  , interp := fun _ _ => [Pose.id]
  , eePose := fun _ => Pose.id
  , samples := []
  , k := 1, cf := 1
  , vlim := [1], alim := [1], timeStep := 1 }

/-- A trivial simulator stub: no passive force, the physics step leaves the
joints where they are. -/
def noopSim : SimCtx := ⟨fun _ => [], fun rs => rs.qpos⟩

/-- A small robot state fixture with two active joints. -/
def rs0 : RobotState := ⟨[0], [5, 6], [7, 8], []⟩

/-- A two-sample planner result fixture driving one joint. -/
def resW : PlanResult :=
  { status := .Success, time := [0, 1], position := [[9], [10]]
  , velocity := [[0], [0]], acceleration := [[0], [0]], duration := 1 }

/-- The trajectory the time parameterizer produces for the one-joint path
`[0] → [1]` under velocity limit 1 and acceleration limit 2. -/
def trajW : Trajectory :=
  { samples := [ { t := 0, pos := [0], vel := [0], acc := [0] }
               , { t := 1, pos := [1/2], vel := [1], acc := [1] }
               , { t := 2, pos := [1], vel := [0], acc := [-1] } ]
  , duration := 2 }

end MPlib

/-! # Theorems -/

namespace MPlib

section RatReduction
attribute [local semireducible] Rat.add Rat.mul Rat.inv Rat.sub

/-- C6: the pose-planning entry point takes a `use_screw` boolean and
dispatches to exactly one planner — the screw-motion planner when it is
true and the sampling (RRTConnect) planner when it is false — returning
the selected planner's result dictionary; the demo multiplexer
`move_to_pose` branches the same way. -/
theorem plan_to_pose_dispatch (ctx : PlannerCtx) (sim : SimCtx) (m : Nat)
    (rs : RobotState) (goal : Pose) (start : Config) :
    plan_to_pose ctx goal start true = plan_screw ctx goal start ∧
    plan_to_pose ctx goal start false = plan_qpos_to_pose ctx goal start ∧
    move_to_pose ctx sim m rs goal true = move_to_pose_with_screw ctx sim m rs goal ∧
    move_to_pose ctx sim m rs goal false = move_to_pose_with_RRTConnect ctx sim m rs goal :=
  ⟨rfl, rfl, rfl, rfl⟩

/-- C9: forward kinematics is deterministic — on the same kinematic tree,
two evaluations with identical joint values return identical poses for
every requested link. -/
theorem forward_kinematics_deterministic (m : ArticulatedModel) (q1 q2 : Config)
    (link : Nat) (h : q1 = q2) :
    forward_kinematics m q1 link = forward_kinematics m q2 link := by
  rw [h]

/-- C9 witness: the determinism theorem applied to the one-joint test model
at joint value `1/2`. -/
theorem forward_kinematics_deterministic_witness :
    forward_kinematics testModel [1/2] 0 = forward_kinematics testModel [1/2] 0 :=
  forward_kinematics_deterministic testModel [1/2] [1/2] 0 rfl

/-- C2: a planning request's result carries an explicit status drawn from
`{Success, IKFailure, PlanningFailure, InfeasibleTimingError,
UnknownLinkError}` — never an exception across the planning boundary — and
the caller `move_to_pose_with_RRTConnect` follows the trajectory only when
the status equals `Success`, returning `-1` with the robot state untouched
otherwise. -/
theorem plan_status_explicit (ctx : PlannerCtx) (sim : SimCtx) (m : Nat)
    (rs : RobotState) (pose : Pose) :
    ((plan_qpos_to_pose ctx pose rs.qpos).status = .Success ∨
     (plan_qpos_to_pose ctx pose rs.qpos).status = .IKFailure ∨
     (plan_qpos_to_pose ctx pose rs.qpos).status = .PlanningFailure ∨
     (plan_qpos_to_pose ctx pose rs.qpos).status = .InfeasibleTimingError ∨
     (plan_qpos_to_pose ctx pose rs.qpos).status = .UnknownLinkError) ∧
    ((plan_qpos_to_pose ctx pose rs.qpos).status ≠ .Success →
      move_to_pose_with_RRTConnect ctx sim m rs pose = (rs, -1)) ∧
    ((plan_qpos_to_pose ctx pose rs.qpos).status = .Success →
      move_to_pose_with_RRTConnect ctx sim m rs pose
        = (follow_path sim m (plan_qpos_to_pose ctx pose rs.qpos) rs, 0)) := by
  refine ⟨?_, ?_, ?_⟩
  · cases (plan_qpos_to_pose ctx pose rs.qpos).status <;> simp
  · intro h
    simp [move_to_pose_with_RRTConnect, h]
  · intro h
    simp [move_to_pose_with_RRTConnect, h]

/-- C2 witness: with a context whose goal IK fails, the caller returns `-1`
and leaves the robot state unchanged. -/
theorem plan_status_explicit_witness :
    move_to_pose_with_RRTConnect failCtx noopSim 2 rs0 Pose.id = (rs0, -1) :=
  (plan_status_explicit failCtx noopSim 2 rs0 Pose.id).2.1 (by decide)

/-- C1: when the screw-motion planner returns a non-`Success` status it has
performed no fallback — the whole motion is rejected with empty sample
arrays — and the fallback to the sampling planner on the same pose is
performed only by the caller-level wrapper `move_to_pose_with_screw`. -/
theorem screw_failure_no_core_fallback (ctx : PlannerCtx) (sim : SimCtx) (m : Nat)
    (rs : RobotState) (pose : Pose)
    (h : (plan_screw ctx pose rs.qpos).status ≠ .Success) :
    move_to_pose_with_screw ctx sim m rs pose
        = move_to_pose_with_RRTConnect ctx sim m rs pose ∧
    (plan_screw ctx pose rs.qpos).position = [] ∧
    (plan_screw ctx pose rs.qpos).velocity = [] := by
  refine ⟨by simp [move_to_pose_with_screw, h], ?_⟩
  cases hs : screwSteps ctx.ikStep ctx.valid rs.qpos (ctx.interp (ctx.eePose rs.qpos) pose) with
  | none => constructor <;> simp [plan_screw, hs, failureResult]
  | some cfgs =>
    cases hp : parameterize (rs.qpos :: cfgs) ctx.vlim ctx.alim with
    | error s => constructor <;> simp [plan_screw, hs, hp, failureResult]
    | ok traj =>
      exact absurd (by simp [plan_screw, hs, hp, resultOfTraj]) h

/-- C1 witness: with a context whose screw-step IK refuses, the screw
planner fails with empty arrays and the wrapper's result coincides with the
RRTConnect wrapper's. -/
theorem screw_failure_no_core_fallback_witness :
    move_to_pose_with_screw failCtx noopSim 2 rs0 Pose.id
        = move_to_pose_with_RRTConnect failCtx noopSim 2 rs0 Pose.id ∧
    (plan_screw failCtx Pose.id rs0.qpos).position = [] ∧
    (plan_screw failCtx Pose.id rs0.qpos).velocity = [] :=
  screw_failure_no_core_fallback failCtx noopSim 2 rs0 Pose.id (by decide)

/-! ### Inverse kinematics (C5) -/

/-- A configuration the IK loop accepts is within limits and within
tolerance. -/
theorem ikLoop_ok_limits (update : Config → Config) (residual : Config → ℚ)
    (tol : ℚ) (lower upper : List ℚ) :
    ∀ (n : Nat) (q0 q : Config),
      ikLoop update residual tol lower upper n q0 = .ok q →
      withinLimits lower upper q = true ∧ residual q ≤ tol := by
  intro n
  induction n with
  | zero =>
    intro q0 q h
    simp [ikLoop] at h
  | succ n ih =>
    intro q0 q h
    unfold ikLoop at h
    by_cases hr : residual q0 ≤ tol
    · rw [if_pos hr] at h
      by_cases hw : withinLimits lower upper q0 = true
      · rw [if_pos hw] at h
        cases h
        exact ⟨hw, hr⟩
      · rw [if_neg hw] at h
        simp at h
    · rw [if_neg hr] at h
      exact ih _ _ h

/-- When no configuration ever reaches tolerance, the IK loop always fails
with `IKFailure`. -/
theorem ikLoop_unreachable (update : Config → Config) (residual : Config → ℚ)
    (tol : ℚ) (lower upper : List ℚ) (h : ∀ c, tol < residual c) :
    ∀ (n : Nat) (q0 : Config),
      ikLoop update residual tol lower upper n q0 = .error .IKFailure := by
  intro n
  induction n with
  | zero => intro q0; rfl
  | succ n ih =>
    intro q0
    unfold ikLoop
    rw [if_neg (not_le.mpr (h q0))]
    exact ih _

/-- C5: every inverse-kinematics call either returns a configuration lying
within every joint's `[lower, upper]` limits with residual within
tolerance (out-of-range solutions are rejected, never clamped), or fails
with `IKFailure`; in particular an unreachable pose (residual never within
tolerance) always yields `IKFailure`. -/
theorem inverse_kinematics_limits (mdl : ArticulatedModel)
    (update : Config → Config) (residual : Config → ℚ)
    (seed : Config) (maxIterations : Nat) (tol : ℚ) :
    (∀ q, inverse_kinematics mdl update residual seed maxIterations tol = .ok q →
        withinLimits mdl.lower mdl.upper q = true ∧ residual q ≤ tol) ∧
    ((∀ c, tol < residual c) →
        inverse_kinematics mdl update residual seed maxIterations tol
          = .error .IKFailure) :=
  ⟨fun q h => ikLoop_ok_limits update residual tol mdl.lower mdl.upper maxIterations seed q h,
   fun h => ikLoop_unreachable update residual tol mdl.lower mdl.upper h maxIterations seed⟩

/-- C5 witness: on the one-joint test model, a converged call returns the
in-limits seed, and a residual bounded away from zero forces `IKFailure`. -/
theorem inverse_kinematics_limits_witness :
    (withinLimits testModel.lower testModel.upper [0] = true ∧ (0 : ℚ) ≤ 0) ∧
    inverse_kinematics testModel (fun q => q) (fun _ => (1 : ℚ)) [0] 3 0
      = .error .IKFailure :=
  ⟨(inverse_kinematics_limits testModel (fun q => q) (fun _ => (0 : ℚ)) [0] 1 0).1 [0] (by rfl),
   (inverse_kinematics_limits testModel (fun q => q) (fun _ => (1 : ℚ)) [0] 3 0).2
     (fun _ => by norm_num)⟩

/-! ### The follow-path frame condition (C10) -/

/-- Reading a position `j` out of a map over `List.range`. -/
theorem getD_range_map (n : Nat) (f : Nat → ℚ) (j : Nat) :
    ((List.range n).map f).getD j 0 = if j < n then f j else 0 := by
  by_cases h : j < n
  · rw [if_pos h, List.getD_eq_getElem?_getD, List.getElem?_map,
      List.getElem?_range h]
    rfl
  · rw [if_neg h, List.getD_eq_getElem?_getD]
    have hnone : ((List.range n).map f)[j]? = none := by
      rw [List.getElem?_eq_none_iff]
      simpa using not_lt.mp h
    rw [hnone]
    rfl

/-- A list read defaults once the index passes the length. -/
theorem getD_of_length_le {α : Type} (l : List α) (d : α) (j : Nat)
    (h : l.length ≤ j) : l.getD j d = d := by
  rw [List.getD_eq_getElem?_getD]
  rw [List.getElem?_eq_none_iff.mpr h]
  rfl

/-- `setDriveTargets` leaves the targets of joints at or past the move
group untouched. -/
theorem setDriveTargets_preserve (m : Nat) (pos vel : List ℚ) (rs : RobotState)
    (j : Nat) (h : m ≤ j) :
    (setDriveTargets m pos vel rs).driveTargets.getD j 0
        = rs.driveTargets.getD j 0 ∧
    (setDriveTargets m pos vel rs).driveVelTargets.getD j 0
        = rs.driveVelTargets.getD j 0 := by
  have hj : ¬ j < m := not_lt.mpr h
  constructor
  · show ((List.range rs.driveTargets.length).map _).getD j 0 = _
    rw [getD_range_map]
    by_cases hl : j < rs.driveTargets.length
    · simp [hl, hj]
    · rw [if_neg hl, getD_of_length_le _ _ _ (not_lt.mp hl)]
  · show ((List.range rs.driveVelTargets.length).map _).getD j 0 = _
    rw [getD_range_map]
    by_cases hl : j < rs.driveVelTargets.length
    · simp [hl, hj]
    · rw [if_neg hl, getD_of_length_le _ _ _ (not_lt.mp hl)]

/-- One `follow_path` iteration leaves non-move-group drive targets
untouched. -/
theorem followStep_preserve (sim : SimCtx) (m : Nat) (pos vel : List ℚ)
    (rs : RobotState) (j : Nat) (h : m ≤ j) :
    (followStep sim m pos vel rs).driveTargets.getD j 0
        = rs.driveTargets.getD j 0 ∧
    (followStep sim m pos vel rs).driveVelTargets.getD j 0
        = rs.driveVelTargets.getD j 0 :=
  setDriveTargets_preserve m pos vel { rs with qf := sim.passiveForce rs } j h

/-- The `follow_path` fold preserves non-move-group drive targets across
any sample index list. -/
theorem foldl_followStep_preserve (sim : SimCtx) (m : Nat)
    (f g : Nat → List ℚ) (l : List Nat) :
    ∀ (rs : RobotState) (j : Nat), m ≤ j →
      ((l.foldl (fun st i => followStep sim m (f i) (g i) st) rs).driveTargets.getD j 0
          = rs.driveTargets.getD j 0) ∧
      ((l.foldl (fun st i => followStep sim m (f i) (g i) st) rs).driveVelTargets.getD j 0
          = rs.driveVelTargets.getD j 0) := by
  induction l with
  | nil => intro rs j _; exact ⟨rfl, rfl⟩
  | cons i t ih =>
    intro rs j h
    have h1 := followStep_preserve sim m (f i) (g i) rs j h
    have h2 := ih (followStep sim m (f i) (g i) rs) j h
    exact ⟨h2.1.trans h1.1, h2.2.trans h1.2⟩

/-- C10: when following a planned trajectory, only the first
`len(move_group_joint_indices)` active joints receive position and
velocity drive targets; every other joint's drive targets are left exactly
as they were by `follow_path`. -/
theorem follow_path_frame (sim : SimCtx) (m : Nat) (result : PlanResult)
    (rs : RobotState) (j : Nat) (h : m ≤ j) :
    (follow_path sim m result rs).driveTargets.getD j 0
        = rs.driveTargets.getD j 0 ∧
    (follow_path sim m result rs).driveVelTargets.getD j 0
        = rs.driveVelTargets.getD j 0 :=
  foldl_followStep_preserve sim m (fun i => result.position.getD i [])
    (fun i => result.velocity.getD i []) (List.range result.position.length) rs j h

/-- C10 witness: following a two-sample one-joint result with move-group
size 1 leaves the second joint's drive targets at their initial values. -/
theorem follow_path_frame_witness :
    (follow_path noopSim 1 resW rs0).driveTargets.getD 1 0
        = rs0.driveTargets.getD 1 0 ∧
    (follow_path noopSim 1 resW rs0).driveVelTargets.getD 1 0
        = rs0.driveVelTargets.getD 1 0 :=
  follow_path_frame noopSim 1 resW rs0 1 (by decide)

/-! ### Attached-object poses (C7) -/

/-- Reading a mapped list below its length ignores the default. -/
theorem getD_map_lt {α β : Type} (f : α → β) (l : List α) (i : Nat)
    (d1 : β) (d2 : α) (hi : i < l.length) :
    (l.map f).getD i d1 = f (l.getD i d2) := by
  rw [List.getD_eq_getElem?_getD, List.getElem?_map, List.getElem?_eq_getElem hi,
    List.getD_eq_getElem?_getD, List.getElem?_eq_getElem hi]
  rfl

/-- C7: for every attached object and every configuration, the object's
world pose as recomputed on query equals `link_pose * relative_offset` —
the pose is a function of the link's current pose, never independent
state. -/
theorem attached_pose_recomputed (w : PlanningWorld) (q : Config) (i : Nat)
    (h : i < w.attached.length) :
    (updateAttachedPoses w q).getD i Pose.id =
      Pose.mul (forward_kinematics w.model q ((w.attached.getD i ⟨0, Pose.id⟩).link))
               ((w.attached.getD i ⟨0, Pose.id⟩).offset) := by
  have key := getD_map_lt
    (fun b : AttachedBody => Pose.mul (forward_kinematics w.model q b.link) b.offset)
    w.attached i Pose.id ⟨0, Pose.id⟩ h
  simpa [updateAttachedPoses] using key

/-- C7 witness: in the test world, the single attached object's queried
pose at joint value `1/2` is the link pose composed with the offset. -/
theorem attached_pose_recomputed_witness :
    (updateAttachedPoses testWorld [1/2]).getD 0 Pose.id =
      Pose.mul (forward_kinematics testWorld.model [1/2]
                  ((testWorld.attached.getD 0 ⟨0, Pose.id⟩).link))
               ((testWorld.attached.getD 0 ⟨0, Pose.id⟩).offset) :=
  attached_pose_recomputed testWorld [1/2] 0 (by decide)

/-! ### Zero-length paths (C8) -/

/-- C8: a zero-length path (start equals goal) with positive joint limits
time-parameterizes to a single-sample trajectory of total duration 0. -/
theorem zero_length_path_single_sample (q : Config) (vlim alim : List ℚ)
    (hv : ∀ v ∈ vlim, 0 < v) (ha : ∀ a ∈ alim, 0 < a) :
    parameterize [q, q] vlim alim =
      .ok { samples := [{ t := 0, pos := q, vel := q.map fun _ => 0
                        , acc := q.map fun _ => 0 }]
          , duration := 0 } := by
  unfold parameterize
  rw [if_pos ⟨hv, ha⟩]
  simp [timeSamples]

/-- C8 witness: the concrete one-joint zero-length plan. -/
theorem zero_length_path_single_sample_witness :
    parameterize [[(0 : ℚ)], [0]] [1] [1] =
      .ok { samples := [{ t := 0, pos := [0], vel := [0], acc := [0] }]
          , duration := 0 } := by
  have h := zero_length_path_single_sample [(0 : ℚ)] [1] [1]
    (by intro v hv; rw [List.mem_singleton] at hv; rw [hv]; norm_num)
    (by intro a ha; rw [List.mem_singleton] at ha; rw [ha]; norm_num)
  simpa using h

/-! ### Trajectory invariants (C3) -/

/-- The square-root search never returns below its starting candidate. -/
theorem upSqrtGo_ge (n : Nat) : ∀ (fuel acc : Nat), acc ≤ upSqrtGo n fuel acc := by
  intro fuel
  induction fuel with
  | zero => intro acc; exact le_refl acc
  | succ fuel ih =>
    intro acc
    unfold upSqrtGo
    by_cases h : n < acc * acc
    · rw [if_pos h]
    · rw [if_neg h]
      exact le_trans (Nat.le_succ acc) (ih (acc + 1))

/-- With enough fuel, the search returns a strict square-root upper
bound. -/
theorem upSqrtGo_spec (n : Nat) : ∀ (fuel acc : Nat),
    n < (acc + fuel) * (acc + fuel) →
    n < upSqrtGo n fuel acc * upSqrtGo n fuel acc := by
  intro fuel
  induction fuel with
  | zero => intro acc h; simpa using h
  | succ fuel ih =>
    intro acc h
    unfold upSqrtGo
    by_cases hc : n < acc * acc
    · rw [if_pos hc]
      exact hc
    · rw [if_neg hc]
      apply ih (acc + 1)
      have he : acc + (fuel + 1) = (acc + 1) + fuel := by omega
      rw [← he]
      exact h

/-- `upSqrt` strictly dominates the square root. -/
theorem upSqrt_spec (n : Nat) : n < upSqrt n * upSqrt n := by
  have h2 : n + 1 ≤ (n + 1) * (n + 1) :=
    Nat.le_mul_of_pos_left (n + 1) (Nat.succ_pos n)
  apply upSqrtGo_spec
  simpa using lt_of_lt_of_le (Nat.lt_succ_self n) h2

/-- `upSqrt` is positive. -/
theorem upSqrt_pos (n : Nat) : 0 < upSqrt n := by
  have h0 : upSqrt n = upSqrtGo n n 1 := by
    show (if n < 0 * 0 then 0 else upSqrtGo n n (0 + 1)) = upSqrtGo n n 1
    rw [if_neg (by omega : ¬ n < 0 * 0)]
  rw [h0]
  exact lt_of_lt_of_le Nat.one_pos (upSqrtGo_ge n n 1)

/-- The rational square-root upper bound is positive. -/
theorem sqrtUB_pos (q : ℚ) : 0 < sqrtUB q := by
  unfold sqrtUB
  apply div_pos
  · exact_mod_cast upSqrt_pos _
  · exact_mod_cast q.pos

/-- The rational square-root upper bound squares above its argument. -/
theorem le_sq_sqrtUB (q : ℚ) (hq : 0 ≤ q) : q ≤ sqrtUB q * sqrtUB q := by
  have hd : (0 : ℚ) < (q.den : ℚ) := by exact_mod_cast q.pos
  have hnum : ((q.num.toNat : ℤ)) = q.num := Int.toNat_of_nonneg (Rat.num_nonneg.mpr hq)
  have hnumQ : ((q.num.toNat : ℚ)) = ((q.num : ℚ)) := by exact_mod_cast hnum
  have hqd : (q.num : ℚ) = q * (q.den : ℚ) := by
    nth_rewrite 2 [← Rat.num_div_den q]
    rw [div_mul_cancel₀ _ (ne_of_gt hd)]
  unfold sqrtUB
  rw [div_mul_div_comm, le_div_iff (by positivity)]
  have hkey : ((q.num.toNat * q.den : ℕ) : ℚ) ≤
      ((upSqrt (q.num.toNat * q.den) : ℕ) : ℚ)
        * ((upSqrt (q.num.toNat * q.den) : ℕ) : ℚ) := by
    exact_mod_cast Nat.le_of_lt (upSqrt_spec (q.num.toNat * q.den))
  calc q * ((q.den : ℚ) * (q.den : ℚ)) = ((q.num : ℚ)) * (q.den : ℚ) := by
        rw [hqd]; ring
    _ = ((q.num.toNat * q.den : ℕ) : ℚ) := by
        push_cast
        rw [hnumQ]
    _ ≤ _ := hkey

/-- Every per-joint segment duration is positive. -/
theorem segTimeJoint_pos (d v a : ℚ) : 0 < segTimeJoint d v a :=
  lt_of_lt_of_le (sqrtUB_pos _) (le_max_right _ _)

/-- Elements are below a `foldr max 0`. -/
theorem foldr_max_ge (f : ℕ → ℚ) :
    ∀ (l : List ℕ) (j : ℕ), j ∈ l →
      f j ≤ l.foldr (fun j acc => max (f j) acc) 0 := by
  intro l
  induction l with
  | nil => intro j h; cases h
  | cons x t ih =>
    intro j h
    rcases List.mem_cons.mp h with h1 | h2
    · rw [h1]; exact le_max_left _ _
    · exact (ih j h2).trans (le_max_right _ _)

/-- The synchronized segment duration dominates every joint's own. -/
theorem segTimeJoint_le_segTime (dq vlim alim : List ℚ) (j : ℕ)
    (hj : j < vlim.length) :
    segTimeJoint (dq.getD j 0) (vlim.getD j 0) (alim.getD j 0)
      ≤ segTime dq vlim alim :=
  foldr_max_ge
    (fun j => segTimeJoint (dq.getD j 0) (vlim.getD j 0) (alim.getD j 0))
    (List.range vlim.length) j (List.mem_range.mpr hj)

/-- With at least one move-group joint, the segment duration is positive. -/
theorem segTime_pos (dq vlim alim : List ℚ) (hn : 0 < vlim.length) :
    0 < segTime dq vlim alim :=
  lt_of_lt_of_le (segTimeJoint_pos _ _ _) (segTimeJoint_le_segTime dq vlim alim 0 hn)

/-- An in-range `getD` read is a member. -/
theorem getD_mem_of_lt {α : Type} (l : List α) (j : Nat) (d : α)
    (h : j < l.length) : l.getD j d ∈ l := by
  rw [List.getD_eq_getElem?_getD, List.getElem?_eq_getElem h]
  exact List.getElem_mem h

/-- Mapping a constant zero yields zero at every read position. -/
theorem getD_map_zero (l : List ℚ) (j : ℕ) :
    (l.map fun _ => (0 : ℚ)).getD j 0 = 0 := by
  by_cases h : j < l.length
  · rw [getD_map_lt _ _ _ _ 0 h]
  · exact getD_of_length_le _ _ _ (by simpa using not_lt.mp h)

/-- Reading a pointwise-negated map. -/
theorem getD_map_neg (f : ℚ → ℚ) (l : List ℚ) (j : ℕ) :
    (l.map fun d => -(f d)).getD j 0 = -((l.map f).getD j 0) := by
  by_cases h : j < l.length
  · rw [getD_map_lt _ _ _ _ 0 h, getD_map_lt _ _ _ _ 0 h]
  · rw [getD_of_length_le _ _ _ (by simpa using not_lt.mp h),
      getD_of_length_le _ _ _ (by simpa using not_lt.mp h)]
    ring

/-- The mid-segment peak velocity `2 d / T` respects the velocity limit of
each move-group joint. -/
theorem vel_bound (dq vlim alim : List ℚ) (j : ℕ) (hj : j < vlim.length)
    (hv : ∀ v ∈ vlim, 0 < v) :
    |(dq.map fun d => 2 * d / segTime dq vlim alim).getD j 0| ≤ vlim.getD j 0 := by
  have hvj : 0 < vlim.getD j 0 := hv _ (getD_mem_of_lt _ _ _ hj)
  have hTpos : 0 < segTime dq vlim alim :=
    segTime_pos _ _ _ (Nat.lt_of_le_of_lt (Nat.zero_le _) hj)
  by_cases hdl : j < dq.length
  · rw [getD_map_lt _ _ _ _ 0 hdl]
    have h1 : 2 * |dq.getD j 0| / vlim.getD j 0 ≤ segTime dq vlim alim :=
      le_trans (le_max_left _ _) (segTimeJoint_le_segTime dq vlim alim j hj)
    rw [div_le_iff hvj] at h1
    rw [abs_div, abs_of_pos hTpos, abs_mul, div_le_iff hTpos]
    have h2 : |(2 : ℚ)| = 2 := by norm_num
    rw [h2]
    nlinarith [h1, hTpos, hvj]
  · rw [getD_of_length_le _ _ _ (by simpa using not_lt.mp hdl)]
    simpa using le_of_lt hvj

/-- The segment acceleration magnitude `4 d / T²` respects the
acceleration limit of each move-group joint. -/
theorem acc_bound (dq vlim alim : List ℚ) (j : ℕ) (hj : j < vlim.length)
    (hja : j < alim.length) (ha : ∀ a ∈ alim, 0 < a) :
    |(dq.map fun d => 4 * d / (segTime dq vlim alim * segTime dq vlim alim)).getD j 0|
      ≤ alim.getD j 0 := by
  have haj : 0 < alim.getD j 0 := ha _ (getD_mem_of_lt _ _ _ hja)
  have hTpos : 0 < segTime dq vlim alim :=
    segTime_pos _ _ _ (Nat.lt_of_le_of_lt (Nat.zero_le _) hj)
  by_cases hdl : j < dq.length
  · rw [getD_map_lt _ _ _ _ 0 hdl]
    have h2 : sqrtUB (4 * |dq.getD j 0| / alim.getD j 0) ≤ segTime dq vlim alim :=
      le_trans (le_max_right _ _) (segTimeJoint_le_segTime dq vlim alim j hj)
    have h4 := le_sq_sqrtUB (4 * |dq.getD j 0| / alim.getD j 0) (by positivity)
    have h3 : 4 * |dq.getD j 0| / alim.getD j 0
        ≤ segTime dq vlim alim * segTime dq vlim alim :=
      le_trans h4 (mul_le_mul h2 h2 (le_of_lt (sqrtUB_pos _)) (le_of_lt hTpos))
    rw [div_le_iff haj] at h3
    rw [abs_div, abs_of_pos (mul_pos hTpos hTpos), abs_mul,
      div_le_iff (mul_pos hTpos hTpos)]
    have h5 : |(4 : ℚ)| = 4 := by norm_num
    rw [h5]
    nlinarith [h3]
  · rw [getD_of_length_le _ _ _ (by simpa using not_lt.mp hdl)]
    simpa using le_of_lt haj

/-- Unfolding `timeSamples` over a degenerate (zero-length) segment: it is
treated as instantaneous and skipped. -/
theorem timeSamples_cons_eq (vlim alim : List ℚ) (t0 : ℚ)
    (qprev qnext : List ℚ) (rest : List (List ℚ)) (h : qprev = qnext) :
    timeSamples vlim alim t0 qprev (qnext :: rest)
      = timeSamples vlim alim t0 qprev rest := by
  subst h
  simp [timeSamples]

/-- Unfolding `timeSamples` over a non-degenerate segment. -/
theorem timeSamples_cons_ne (vlim alim : List ℚ) (t0 : ℚ)
    (qprev qnext : List ℚ) (rest : List (List ℚ)) (h : ¬ qprev = qnext) :
    timeSamples vlim alim t0 qprev (qnext :: rest) =
      { t := t0 + segTime (segDelta qprev qnext) vlim alim / 2
      , pos := List.zipWith (fun a b => (a + b) / 2) qprev qnext
      , vel := (segDelta qprev qnext).map
          (fun d => 2 * d / segTime (segDelta qprev qnext) vlim alim)
      , acc := (segDelta qprev qnext).map
          (fun d => 4 * d / (segTime (segDelta qprev qnext) vlim alim
              * segTime (segDelta qprev qnext) vlim alim)) } ::
      { t := t0 + segTime (segDelta qprev qnext) vlim alim
      , pos := qnext
      , vel := qnext.map (fun _ => 0)
      , acc := (segDelta qprev qnext).map
          (fun d => -(4 * d / (segTime (segDelta qprev qnext) vlim alim
              * segTime (segDelta qprev qnext) vlim alim))) } ::
      timeSamples vlim alim (t0 + segTime (segDelta qprev qnext) vlim alim) qnext rest := by
  simp [timeSamples, h]

/-- Soundness of the sample stream: every emitted sample respects the
per-joint velocity/acceleration limits, sits strictly after the segment
start time, and the stream is strictly increasing in time. -/
theorem timeSamples_sound (vlim alim : List ℚ) (hn : 0 < vlim.length)
    (hlen : vlim.length ≤ alim.length)
    (hv : ∀ v ∈ vlim, 0 < v) (ha : ∀ a ∈ alim, 0 < a) :
    ∀ (ws : List (List ℚ)) (t0 : ℚ) (qprev : List ℚ),
      (∀ s ∈ timeSamples vlim alim t0 qprev ws,
        (∀ j, j < vlim.length →
            |s.vel.getD j 0| ≤ vlim.getD j 0 ∧ |s.acc.getD j 0| ≤ alim.getD j 0) ∧
        t0 < s.t) ∧
      List.Chain' (fun a b => a.t < b.t) (timeSamples vlim alim t0 qprev ws) := by
  intro ws
  induction ws with
  | nil =>
    intro t0 qprev
    constructor
    · intro s hs
      simp [timeSamples] at hs
    · simp [timeSamples]
  | cons qnext rest ih =>
    intro t0 qprev
    by_cases heq : qprev = qnext
    · rw [timeSamples_cons_eq vlim alim t0 qprev qnext rest heq]
      exact ih t0 qprev
    · rw [timeSamples_cons_ne vlim alim t0 qprev qnext rest heq]
      have hTpos : 0 < segTime (segDelta qprev qnext) vlim alim :=
        segTime_pos (segDelta qprev qnext) vlim alim hn
      obtain ⟨ihAll, ihChain⟩ := ih (t0 + segTime (segDelta qprev qnext) vlim alim) qnext
      constructor
      · intro s hs
        rcases List.mem_cons.mp hs with h1 | hs2
        · subst h1
          refine ⟨?_, by simpa using by linarith⟩
          intro j hj
          exact ⟨vel_bound (segDelta qprev qnext) vlim alim j hj hv,
            acc_bound (segDelta qprev qnext) vlim alim j hj
              (Nat.lt_of_lt_of_le hj hlen) ha⟩
        · rcases List.mem_cons.mp hs2 with h2 | hs3
          · subst h2
            refine ⟨?_, by simpa using by linarith⟩
            intro j hj
            constructor
            · rw [getD_map_zero]
              simpa using le_of_lt (hv _ (getD_mem_of_lt _ _ _ hj))
            · rw [getD_map_neg, abs_neg]
              exact acc_bound (segDelta qprev qnext) vlim alim j hj
                (Nat.lt_of_lt_of_le hj hlen) ha
          · obtain ⟨hb, ht⟩ := ihAll s hs3
            exact ⟨hb, by linarith⟩
      · refine List.chain'_cons.mpr ⟨by simpa using by linarith, ?_⟩
        refine List.chain'_cons'.mpr ⟨?_, ihChain⟩
        intro y hy
        have hmem := List.mem_of_mem_head? hy
        have := (ihAll y hmem).2
        simpa using this

/-- Structure of a successful `parameterize` run: the limits were
positive, the path nonempty, and the samples are the rest sample at the
first waypoint followed by the segment stream. -/
theorem parameterize_ok (path : List (List ℚ)) (vlim alim : List ℚ)
    (traj : Trajectory) (hok : parameterize path vlim alim = .ok traj) :
    (∀ v ∈ vlim, 0 < v) ∧ (∀ a ∈ alim, 0 < a) ∧
    ∃ q0 rest, path = q0 :: rest ∧
      traj.samples =
        { t := 0, pos := q0, vel := q0.map fun _ => 0, acc := q0.map fun _ => 0 }
          :: timeSamples vlim alim 0 q0 rest := by
  unfold parameterize at hok
  by_cases hlim : (∀ v ∈ vlim, 0 < v) ∧ (∀ a ∈ alim, 0 < a)
  · rw [if_pos hlim] at hok
    refine ⟨hlim.1, hlim.2, ?_⟩
    cases path with
    | nil => exact Except.noConfusion hok
    | cons q0 rest =>
      refine ⟨q0, rest, rfl, ?_⟩
      injection hok with h3
      rw [← h3]
  · rw [if_neg hlim] at hok
    exact Except.noConfusion hok

/-- C3: in every trajectory the parameterizer returns with success, every
sample of every move-group joint respects that joint's velocity and
acceleration limits, the time values of consecutive samples strictly
increase, and the first sample's position equals the plan's start
configuration (the head of the planned path). -/
theorem trajectory_invariants (path : List (List ℚ)) (vlim alim : List ℚ)
    (traj : Trajectory) (hn : 0 < vlim.length) (hlen : vlim.length ≤ alim.length)
    (hok : parameterize path vlim alim = .ok traj) :
    (∀ s ∈ traj.samples, ∀ j, j < vlim.length →
        |s.vel.getD j 0| ≤ vlim.getD j 0 ∧ |s.acc.getD j 0| ≤ alim.getD j 0) ∧
    List.Chain' (fun a b => a.t < b.t) traj.samples ∧
    (traj.samples.head?).map Sample.pos = path.head? := by
  obtain ⟨hv, ha, q0, rest, hpath, hsamp⟩ := parameterize_ok path vlim alim traj hok
  obtain ⟨hall, hchain⟩ := timeSamples_sound vlim alim hn hlen hv ha rest 0 q0
  refine ⟨?_, ?_, ?_⟩
  · intro s hs j hj
    rw [hsamp] at hs
    rcases List.mem_cons.mp hs with h1 | h2
    · subst h1
      constructor
      · show |(q0.map fun _ => (0 : ℚ)).getD j 0| ≤ vlim.getD j 0
        rw [getD_map_zero]
        simpa using le_of_lt (hv _ (getD_mem_of_lt _ _ _ hj))
      · show |(q0.map fun _ => (0 : ℚ)).getD j 0| ≤ alim.getD j 0
        rw [getD_map_zero]
        simpa using le_of_lt (ha _ (getD_mem_of_lt _ _ _ (Nat.lt_of_lt_of_le hj hlen)))
    · exact (hall s h2).1 j hj
  · rw [hsamp]
    refine List.chain'_cons'.mpr ⟨?_, hchain⟩
    intro y hy
    have := (hall y (List.mem_of_mem_head? hy)).2
    simpa using this
  · rw [hsamp, hpath]
    rfl

/-- C3 witness: the invariants instantiated on the one-joint path
`[0] → [1]` with velocity limit 1 and acceleration limit 2. -/
theorem trajectory_invariants_witness :
    (∀ s ∈ trajW.samples, ∀ j, j < [(1 : ℚ)].length →
        |s.vel.getD j 0| ≤ [(1 : ℚ)].getD j 0 ∧ |s.acc.getD j 0| ≤ [(2 : ℚ)].getD j 0) ∧
    List.Chain' (fun a b => a.t < b.t) trajW.samples ∧
    (trajW.samples.head?).map Sample.pos = [[(0 : ℚ)], [1]].head? :=
  trajectory_invariants [[0], [1]] [1] [2] trajW (by decide) (by decide) (by rfl)

/-! ### Collision-validated paths (C4) -/

/-- Every node of a freshly built chain carries one of the chain's
configurations. -/
theorem chainNodes_mem :
    ∀ (par idx : Nat) (qs : List Config) (nd : Node),
      nd ∈ chainNodes par idx qs → nd.config ∈ qs := by
  intro par idx qs
  induction qs generalizing par idx with
  | nil => intro nd h; cases h
  | cons c cs ih =>
    intro nd h
    rcases List.mem_cons.mp h with h1 | h2
    · rw [h1]
      exact List.mem_cons_self _ _
    · exact List.mem_cons_of_mem _ (ih idx (idx + 1) nd h2)

/-- Extension only adds configurations the validity oracle accepted. -/
theorem extend_mem (valid : Config → Bool) (k : Nat) (tree : Tree)
    (target : Config) :
    ∀ nd ∈ (extend valid k tree target).1, nd ∈ tree ∨ valid nd.config = true := by
  intro nd hmem
  simp only [extend] at hmem
  split at hmem
  · exact Or.inl hmem
  · rcases List.mem_append.mp hmem with h | h
    · exact Or.inl h
    · exact Or.inr (List.mem_takeWhile_imp (chainNodes_mem _ _ _ _ h))

/-- Extension never empties a tree. -/
theorem extend_ne_nil (valid : Config → Bool) (k : Nat) (tree : Tree)
    (target : Config) (h : tree ≠ []) : (extend valid k tree target).1 ≠ [] := by
  simp only [extend]
  split
  · exact h
  · simp [h]

/-- The connect loop only adds oracle-accepted configurations. -/
theorem connectLoop_mem (valid : Config → Bool) (k : Nat) (target : Config) :
    ∀ (fuel : Nat) (tree : Tree) (nd : Node),
      nd ∈ (connectLoop valid k target fuel tree).1 →
      nd ∈ tree ∨ valid nd.config = true := by
  intro fuel
  induction fuel with
  | zero => intro tree nd h; exact Or.inl h
  | succ fuel ih =>
    intro tree nd h
    simp only [connectLoop] at h
    rcases hx : extend valid k tree target with ⟨tree1, o⟩
    rw [hx] at h
    have hstep : nd ∈ tree1 → nd ∈ tree ∨ valid nd.config = true := by
      intro h1
      have := extend_mem valid k tree target nd (by rw [hx]; exact h1)
      exact this
    cases o with
    | none => exact hstep h
    | some li =>
      dsimp only [] at h
      by_cases hr : (getNode tree1 li).config = target
      · rw [if_pos hr] at h
        exact hstep h
      · rw [if_neg hr] at h
        rcases ih tree1 nd h with h1 | h2
        · exact hstep h1
        · exact Or.inr h2

/-- The connect loop never empties a tree. -/
theorem connectLoop_ne_nil (valid : Config → Bool) (k : Nat) (target : Config) :
    ∀ (fuel : Nat) (tree : Tree), tree ≠ [] →
      (connectLoop valid k target fuel tree).1 ≠ [] := by
  intro fuel
  induction fuel with
  | zero => intro tree h; exact h
  | succ fuel ih =>
    intro tree h
    simp only [connectLoop]
    rcases hx : extend valid k tree target with ⟨tree1, o⟩
    have h1 : tree1 ≠ [] := by
      have := extend_ne_nil valid k tree target h
      rw [hx] at this
      exact this
    cases o with
    | none => exact h1
    | some li =>
      dsimp only []
      by_cases hr : (getNode tree1 li).config = target
      · rw [if_pos hr]
        exact h1
      · rw [if_neg hr]
        exact ih tree1 h1

/-- An arena lookup lands in the tree whenever the tree is nonempty. -/
theorem getNode_mem (tree : Tree) (i : Nat) (h : tree ≠ []) :
    getNode tree i ∈ tree := by
  unfold getNode
  by_cases hi : i < tree.length
  · rw [List.getD_eq_getElem?_getD, List.getElem?_eq_getElem hi]
    exact List.getElem_mem hi
  · rw [List.getD_eq_getElem?_getD, List.getElem?_eq_none_iff.mpr (not_lt.mp hi)]
    show tree.headD ⟨[], 0⟩ ∈ tree
    cases tree with
    | nil => exact absurd rfl h
    | cons a t => exact List.mem_cons_self a t

/-- Every configuration a back-pointer walk collects belongs to a node of
the tree, hence is oracle-accepted when all nodes are. -/
theorem trace_valid (valid : Config → Bool) (tree : Tree) (hne : tree ≠ [])
    (hall : ∀ nd ∈ tree, valid nd.config = true) :
    ∀ (fuel i : Nat), ∀ q ∈ trace tree fuel i, valid q = true := by
  intro fuel
  induction fuel with
  | zero => intro i q h; cases h
  | succ fuel ih =>
    intro i q h
    simp only [trace] at h
    by_cases hp : (getNode tree i).parent = i
    · rw [if_pos hp] at h
      rw [List.mem_singleton.mp h]
      exact hall _ (getNode_mem tree i hne)
    · rw [if_neg hp] at h
      rcases List.mem_cons.mp h with h1 | h2
      · rw [h1]
        exact hall _ (getNode_mem tree i hne)
      · exact ih _ q h2

/-- Shortcutting only keeps configurations of the original path. -/
theorem shortcut_subset (valid : Config → Bool) (k : Nat) (l : List Config) :
    ∀ q ∈ shortcut valid k l, q ∈ l := by
  induction l using shortcut.induct valid k with
  | case1 a b c rest ha ih =>
    intro q hq
    rw [shortcut, if_pos ha] at hq
    rcases List.mem_cons.mp hq with h1 | h2
    · rw [h1]
      exact List.mem_cons_self _ _
    · exact List.mem_cons_of_mem _ (List.mem_cons_of_mem _ (ih q h2))
  | case2 a b c rest ha ih =>
    intro q hq
    rw [shortcut, if_neg ha] at hq
    rcases List.mem_cons.mp hq with h1 | h2
    · rw [h1]
      exact List.mem_cons_self _ _
    · exact List.mem_cons_of_mem _ (ih q h2)
  | case3 l h =>
    intro q hq
    cases l with
    | nil => exact hq
    | cons a t =>
      cases t with
      | nil => exact hq
      | cons b t2 =>
        cases t2 with
        | nil => exact hq
        | cons c rest => exact absurd rfl (h a b c rest)

/-- Every configuration on a path the RRTConnect loop returns was accepted
by the validity oracle. -/
theorem rrtLoop_valid (valid : Config → Bool) (k cf : Nat) :
    ∀ (samples : List Config) (ta tb : Tree) (aIsStart : Bool) (path : List Config),
      ta ≠ [] → tb ≠ [] →
      (∀ nd ∈ ta, valid nd.config = true) →
      (∀ nd ∈ tb, valid nd.config = true) →
      rrtLoop valid k cf samples ta tb aIsStart = some path →
      ∀ q ∈ path, valid q = true := by
  intro samples
  induction samples with
  | nil =>
    intro ta tb aIsStart path _ _ _ _ h
    exact absurd h (by simp [rrtLoop])
  | cons s rest ih =>
    intro ta tb aIsStart path hta htb hva hvb h
    simp only [rrtLoop] at h
    rcases hx : extend valid k ta s with ⟨ta1, o⟩
    rw [hx] at h
    have hta1 : ta1 ≠ [] := by
      have := extend_ne_nil valid k ta s hta
      rw [hx] at this
      exact this
    have hva1 : ∀ nd ∈ ta1, valid nd.config = true := by
      intro nd hnd
      rcases extend_mem valid k ta s nd (by rw [hx]; exact hnd) with h1 | h2
      · exact hva nd h1
      · exact h2
    cases o with
    | none => exact ih tb ta1 (!aIsStart) path htb hta1 hvb hva1 h
    | some li =>
      dsimp only [] at h
      rcases hc : connectLoop valid k ((getNode ta1 li).config) cf tb with ⟨tb1, o2⟩
      rw [hc] at h
      have htb1 : tb1 ≠ [] := by
        have := connectLoop_ne_nil valid k ((getNode ta1 li).config) cf tb htb
        rw [hc] at this
        exact this
      have hvb1 : ∀ nd ∈ tb1, valid nd.config = true := by
        intro nd hnd
        rcases connectLoop_mem valid k ((getNode ta1 li).config) cf tb nd
            (by rw [hc]; exact hnd) with h1 | h2
        · exact hvb nd h1
        · exact h2
      cases o2 with
      | none => exact ih tb1 ta1 (!aIsStart) path htb1 hta1 hvb1 hva1 h
      | some lj =>
        injection h with h
        intro q hq
        rw [← h] at hq
        cases aIsStart with
        | true =>
          simp at hq
          rcases hq with h1 | h2
          · exact trace_valid valid ta1 hta1 hva1 _ _ q h1
          · exact trace_valid valid tb1 htb1 hvb1 _ _ q h2
        | false =>
          simp at hq
          rcases hq with h1 | h2
          · exact trace_valid valid tb1 htb1 hvb1 _ _ q h1
          · exact trace_valid valid ta1 hta1 hva1 _ _ q h2

/-- Every configuration on a path the sampling planner returns was
accepted by the validity oracle. -/
theorem plan_rrt_valid (valid : Config → Bool) (k cf : Nat)
    (samples : List Config) (start goal : Config) (path : List Config)
    (h : plan_rrt valid k cf samples start goal = some path) :
    ∀ q ∈ path, valid q = true := by
  unfold plan_rrt at h
  by_cases hsv : valid start && valid goal
  · rw [if_pos hsv] at h
    rcases ho : rrtLoop valid k cf samples [⟨start, 0⟩] [⟨goal, 0⟩] true with _ | p0
    · rw [ho] at h
      cases h
    · rw [ho] at h
      injection h with h
      intro q hq
      rw [← h] at hq
      have hq0 := shortcut_subset valid k p0 q hq
      have hb := Bool.and_eq_true_iff.mp hsv
      refine rrtLoop_valid valid k cf samples [⟨start, 0⟩] [⟨goal, 0⟩] true p0
        (by simp) (by simp) ?_ ?_ ho q hq0
      · intro nd hnd
        rw [List.mem_singleton.mp hnd]
        exact hb.1
      · intro nd hnd
        rw [List.mem_singleton.mp hnd]
        exact hb.2
  · rw [if_neg hsv] at h
    cases h

/-- C4: every joint-space configuration on a path returned by a successful
sampling plan satisfies `CollisionWorld.is_valid` — the path is
collision-validated end to end. -/
theorem plan_rrt_path_is_valid (w : PlanningWorld) (collide : Pose → Pose → Bool)
    (selfPairs : List (Nat × Nat)) (k cf : Nat) (samples : List Config)
    (start goal : Config) (path : List Config)
    (h : plan_rrt (is_valid w collide selfPairs) k cf samples start goal = some path) :
    ∀ q ∈ path, is_valid w collide selfPairs q = true :=
  plan_rrt_valid (is_valid w collide selfPairs) k cf samples start goal path h

/-- C4 witness: a concrete one-joint plan in the test world whose oracle
never reports contact returns the path `[[0], [1], [1]]`, and both its
configurations are valid. -/
theorem plan_rrt_path_is_valid_witness :
    is_valid testWorld (fun _ _ => false) [] [(0 : ℚ)] = true ∧
    is_valid testWorld (fun _ _ => false) [] [(1 : ℚ)] = true :=
  ⟨plan_rrt_path_is_valid testWorld (fun _ _ => false) [] 1 1 [[1]] [0] [1]
      [[0], [1], [1]] (by rfl) [(0 : ℚ)] (by simp),
   plan_rrt_path_is_valid testWorld (fun _ _ => false) [] 1 1 [[1]] [0] [1]
      [[0], [1], [1]] (by rfl) [(1 : ℚ)] (by simp)⟩

end RatReduction

end MPlib
